import Mathlib

/-!
Formal model of the FastSpeech variance adaptor (`src/model/modules.py`).

Tensors are modelled as nested lists (batch → time → value); scalar entries
are rationals. Learned sub-networks (the convolution stacks of the variance
predictors, the embedding tables) and the transcendental primitives
`torch.exp` / `np.log` are abstract function parameters, since layer
normalisation and exponentials have no exact rational semantics; every
discrete operation (rounding, clamping, bucketization, expansion, padding,
masking, linspace) is translated exactly from the source.

`utils.pad` and `utils.get_mask_from_lengths` are code of this repository
that is not under `src/` (only their caller `model/modules.py` is); they are
modelled from the spec, as marked on their doc comments.
-/

namespace FastSpeech

/-- `torch.round`: round half to even, on exact rationals. -/
def torchRound (q : ℚ) : ℤ :=
  let f : ℤ := ⌊q⌋
  let frac : ℚ := q - f
  if frac < 1/2 then f
  else if 1/2 < frac then f + 1
  else if f % 2 = 0 then f else f + 1

/-- `torch.bucketize(v, boundaries)` with the default `right=False`: the
returned index `i` satisfies `boundaries[i-1] < v <= boundaries[i]`, i.e. it
is the number of boundaries strictly below `v` (for sorted boundaries). -/
def bucketize (v : ℚ) (boundaries : List ℚ) : ℕ :=
  boundaries.countP (fun b => decide (b < v))

/-- `torch.linspace(start, stop, steps)`: `steps` evenly spaced points from
`start` to `stop` inclusive. -/
def linspace (start stop : ℚ) (steps : ℕ) : List ℚ :=
  if steps = 1 then [start]
  else (List.range steps).map
    (fun i : ℕ => start + (i : ℚ) * (stop - start) / ((steps : ℚ) - 1))

section Model

variable {α : Type}

namespace LengthRegulator

/-- The loop body of `LengthRegulator.expand`: `out.append(vec.expand(int(d), -1))`
for each position. `predicted[i]` out of range raises (IndexError), and
`vec.expand(d, -1)` raises for negative `d`: both are `none`. -/
def expandRows : List α → List ℤ → Option (List (List α))
  | [], _ => some []
  | _ :: _, [] => none
  | v :: vs, d :: ds =>
    if d < 0 then none
    else
      match expandRows vs ds with
      | none => none
      | some rest => some (List.replicate d.toNat v :: rest)

/-- `LengthRegulator.expand`: repeat each position's vector `predicted[i]`
times and concatenate with `torch.cat(out, 0)`, which raises on an empty
list of tensors (a zero-position sample). -/
def expand (batch : List α) (predicted : List ℤ) : Option (List α) :=
  match expandRows batch predicted with
  | none => none
  | some out => if out.isEmpty then none else some out.flatten

/-- Modelled from the spec: `utils.pad` is code of this repository missing
from `src/` (only its caller `LengthRegulator.LR` is present). Per the spec:
pad every sample's sequence with zero rows to exactly `max_len` when it is
supplied, failing if any sample's real length exceeds `max_len`; when it is
not supplied, pad to the maximum real length across the batch. -/
def pad [Zero α] (seqs : List (List α)) (maxLen : Option ℕ) : Option (List (List α)) :=
  let target : ℕ :=
    match maxLen with
    | some m => m
    | none => (seqs.map List.length).foldr max 0
  if seqs.all (fun s => s.length ≤ target) then
    some (seqs.map (fun s => s ++ List.replicate (target - s.length) (0 : α)))
  else none

/-- The per-batch loop of `LengthRegulator.LR`: expand every sample,
propagating any failure. -/
def expandAll : List (List α × List ℤ) → Option (List (List α))
  | [] => some []
  | p :: ps =>
    match expand p.1 p.2, expandAll ps with
    | some e, some rest => some (e :: rest)
    | _, _ => none

/-- `LengthRegulator.LR`: expand each sample by its durations, record each
expanded sample's real length, then pad the batch. -/
def LR [Zero α] (x : List (List α)) (duration : List (List ℤ)) (maxLen : Option ℕ) :
    Option (List (List α) × List ℕ) :=
  match expandAll (x.zip duration) with
  | none => none
  | some output =>
    let melLen := output.map List.length
    match pad output maxLen with
    | none => none
    | some padded => some (padded, melLen)

/-- `LengthRegulator.forward` delegates to `LR`. -/
def forward [Zero α] (x : List (List α)) (duration : List (List ℤ)) (maxLen : Option ℕ) :
    Option (List (List α) × List ℕ) :=
  LR x duration maxLen

end LengthRegulator

namespace VariancePredictor

/-- `out.masked_fill(mask, 0.0)` on one sample's row of scalars. -/
def maskedFill (out : List ℚ) (mask : List Bool) : List ℚ :=
  (out.zip mask).map (fun p => if p.2 then 0 else p.1)

/-- `VariancePredictor.forward`: the convolution stack plus linear projection
and squeeze is the abstract per-sample map `net` (its learned weights and the
layer-norm square roots have no exact rational semantics); if a mask is given,
masked positions are overridden with `0.0`. -/
def forward (net : List α → List ℚ) (x : List (List α)) (mask : Option (List (List Bool))) :
    List (List ℚ) :=
  let out := x.map net
  match mask with
  | none => out
  | some m => (out.zip m).map (fun p => maskedFill p.1 p.2)

end VariancePredictor

namespace Conv

/-- Output time length of `nn.Conv1d` with stride 1 and dilation 1:
`L_out = L_in + 2 * padding - kernel + 1`. -/
def outLen (lin : ℤ) (kernel padding : ℕ) : ℤ :=
  lin + 2 * (padding : ℤ) - (kernel : ℤ) + 1

end Conv

/-- Time length through the Variance Predictor's two convolutions: the first
uses padding `(kernel - 1) // 2`, the second a fixed padding of `1`
(`VariancePredictor.__init__`). The other layers preserve the time length. -/
def VariancePredictor.timeOutLen (time kernel : ℕ) : ℤ :=
  Conv.outLen (Conv.outLen (time : ℤ) kernel ((kernel - 1) / 2)) kernel 1

/-- `VarianceAdaptor.__init__`: `pitch_bins = exp(linspace(log f0_min, log f0_max, n_bins - 1))`,
with `exp` and `log` abstract. -/
def pitchBinsInit (expQ logQ : ℚ → ℚ) (f0Min f0Max : ℚ) (nBins : ℕ) : List ℚ :=
  (linspace (logQ f0Min) (logQ f0Max) (nBins - 1)).map expQ

/-- `VarianceAdaptor.__init__`: `energy_bins = linspace(energy_min, energy_max, n_bins - 1)`. -/
def energyBinsInit (energyMin energyMax : ℚ) (nBins : ℕ) : List ℚ :=
  linspace energyMin energyMax (nBins - 1)

/-- One inference-mode duration count:
`clamp(round(exp(log_duration_prediction) - log_offset), min=0)`, with
`torch.exp` abstract. -/
def durationRounded (expQ : ℚ → ℚ) (logOffset : ℚ) (p : ℚ) : ℤ :=
  max (torchRound (expQ p - logOffset)) 0

/-- The duration branch of `VarianceAdaptor.forward`: the target verbatim in
training mode, the rounded-and-clamped prediction in inference mode. -/
def durationValues (expQ : ℚ → ℚ) (logOffset : ℚ)
    (logDurationPrediction : List (List ℚ)) (durationTarget : Option (List (List ℤ))) :
    List (List ℤ) :=
  match durationTarget with
  | some t => t
  | none => logDurationPrediction.map (List.map (durationRounded expQ logOffset))

/-- Elementwise addition of two (batch, time) tensors of rows. -/
def addBatch [Add α] (a b : List (List α)) : List (List α) :=
  (a.zip b).map (fun p => (p.1.zip p.2).map (fun q => q.1 + q.2))

/-- Modelled from the spec: `utils.get_mask_from_lengths` is code of this
repository missing from `src/` (only its caller `VarianceAdaptor.forward` is
present). Per the spec, the mel mask derived from the frame counts marks
positions at or beyond each sample's count as padding (True), over the batch
maximum length. -/
def get_mask_from_lengths (lengths : List ℕ) : List (List Bool) :=
  let m := lengths.foldr max 0
  lengths.map (fun l => (List.range m).map (fun p => decide (l ≤ p)))

/-- The learned state of `VarianceAdaptor.__init__`: three predictor networks
(abstract per-sample maps), two embedding tables (abstract index maps), the
two boundary vectors, and the hyperparameters of the duration decoding. -/
structure VarianceAdaptor (α : Type) where
  duration_predictor : List α → List ℚ
  pitch_predictor : List α → List ℚ
  energy_predictor : List α → List ℚ
  pitch_embedding : ℕ → α
  energy_embedding : ℕ → α
  pitch_bins : List ℚ
  energy_bins : List ℚ
  log_offset : ℚ
  expQ : ℚ → ℚ

/-- `VarianceAdaptor.forward`: duration prediction and count derivation,
pitch and energy prediction with bucketize-and-embed (from the target when
given, else the prediction), additive fusion, length regulation, and mel-mask
derivation. Returns the source's six-tuple. -/
def VarianceAdaptor.forward [Zero α] [Add α] (M : VarianceAdaptor α)
    (x : List (List α)) (srcMask : List (List Bool))
    (melMask : Option (List (List Bool)))
    (durationTarget : Option (List (List ℤ)))
    (pitchTarget energyTarget : Option (List (List ℚ)))
    (maxLen : Option ℕ) :
    Option (List (List α) × List (List ℚ) × List (List ℚ) × List (List ℚ)
            × List ℕ × List (List Bool)) :=
  let log_duration_prediction := VariancePredictor.forward M.duration_predictor x (some srcMask)
  let duration_values := durationValues M.expQ M.log_offset log_duration_prediction durationTarget
  let pitch_prediction := VariancePredictor.forward M.pitch_predictor x (some srcMask)
  let pitchSource :=
    match pitchTarget with
    | some t => t
    | none => pitch_prediction
  let pitch_embedded :=
    pitchSource.map (fun row => row.map (fun v => M.pitch_embedding (bucketize v M.pitch_bins)))
  let energy_prediction := VariancePredictor.forward M.energy_predictor x (some srcMask)
  let energySource :=
    match energyTarget with
    | some t => t
    | none => energy_prediction
  let energy_embedded :=
    energySource.map (fun row => row.map (fun v => M.energy_embedding (bucketize v M.energy_bins)))
  let fused := addBatch (addBatch x pitch_embedded) energy_embedded
  match LengthRegulator.LR fused duration_values maxLen with
  | none => none
  | some (out, mel_len) =>
    let mel_mask :=
      match melMask with
      | some m => m
      | none => get_mask_from_lengths mel_len
    some (out, log_duration_prediction, pitch_prediction, energy_prediction, mel_len, mel_mask)

/-- Mathematical description of the Length Regulator's per-sample expansions:
for each (sample, durations) pair of the batch, the concatenation, in
original position order, of each position's vector repeated its duration
count of times. Proved below to coincide with what `LengthRegulator.expand`
computes. -/
def expandedBatch (x : List (List α)) (duration : List (List ℤ)) : List (List α) :=
  (x.zip duration).map
    (fun p => ((p.1.zip p.2).map (fun q => List.replicate q.2.toNat q.1)).flatten)

end Model

section Lemmas

variable {α : Type}

theorem le_foldr_max (l : List ℕ) : ∀ a ∈ l, a ≤ l.foldr max 0 := by
  induction l with
  | nil => intro a ha; cases ha
  | cons b t ih =>
    intro a ha
    rcases List.mem_cons.mp ha with h | h
    · exact h ▸ le_max_left _ _
    · exact le_trans (ih a h) (le_max_right _ _)

theorem expandRows_eq (batch : List α) :
    ∀ d : List ℤ, batch.length ≤ d.length → (∀ k ∈ d, 0 ≤ k) →
    LengthRegulator.expandRows batch d =
      some ((batch.zip d).map (fun q => List.replicate q.2.toNat q.1)) := by
  induction batch with
  | nil => intro d _ _; rfl
  | cons v vs ih =>
    intro d hlen hpos
    cases d with
    | nil => simp at hlen
    | cons k ks =>
      have hk : ¬ k < 0 := not_lt.mpr (hpos k (List.mem_cons_self _ _))
      have hrec := ih ks (by simpa using hlen)
        (fun a ha => hpos a (List.mem_cons_of_mem _ ha))
      simp only [LengthRegulator.expandRows, if_neg hk, hrec, List.zip_cons_cons,
        List.map_cons]

theorem expand_eq (batch : List α) (d : List ℤ) (hne : batch ≠ [])
    (hlen : batch.length ≤ d.length) (hpos : ∀ k ∈ d, 0 ≤ k) :
    LengthRegulator.expand batch d =
      some ((batch.zip d).map (fun q => List.replicate q.2.toNat q.1)).flatten := by
  unfold LengthRegulator.expand
  rw [expandRows_eq batch d hlen hpos]
  cases batch with
  | nil => exact absurd rfl hne
  | cons v vs =>
    cases d with
    | nil => simp at hlen
    | cons k ks => rfl

theorem expand_result_length (batch : List α) (d : List ℤ) (hlen : batch.length = d.length) :
    (((batch.zip d).map (fun q => List.replicate q.2.toNat q.1)).flatten).length
      = (d.map Int.toNat).sum := by
  rw [List.length_flatten, List.map_map]
  have h1 : (List.length ∘ fun q : α × ℤ => List.replicate q.2.toNat q.1)
      = fun q : α × ℤ => q.2.toNat := by
    funext q; simp
  rw [h1]
  have h2 : (batch.zip d).map (fun q : α × ℤ => q.2.toNat)
      = (List.map Prod.snd (batch.zip d)).map Int.toNat := by
    rw [List.map_map]; rfl
  rw [h2, List.map_snd_zip _ _ (le_of_eq hlen.symm)]

theorem expandAll_eq_map (ps : List (List α × List ℤ))
    (h : ∀ p ∈ ps, p.1 ≠ [] ∧ p.1.length ≤ p.2.length ∧ ∀ k ∈ p.2, 0 ≤ k) :
    LengthRegulator.expandAll ps =
      some (ps.map (fun p => ((p.1.zip p.2).map (fun q => List.replicate q.2.toNat q.1)).flatten)) := by
  induction ps with
  | nil => rfl
  | cons p t ih =>
    obtain ⟨h1, h2, h3⟩ := h p (List.mem_cons_self _ _)
    have hrec := ih (fun q hq => h q (List.mem_cons_of_mem _ hq))
    unfold LengthRegulator.expandAll
    rw [expand_eq p.1 p.2 h1 h2 h3, hrec]
    rfl

theorem expandAll_none (ps : List (List α × List ℤ))
    (h : ∃ p ∈ ps, LengthRegulator.expand p.1 p.2 = none) :
    LengthRegulator.expandAll ps = none := by
  induction ps with
  | nil => simp at h
  | cons q t ih =>
    obtain ⟨p, hp, hpn⟩ := h
    rcases List.mem_cons.mp hp with h1 | h1
    · subst h1
      unfold LengthRegulator.expandAll
      rw [hpn]
    · unfold LengthRegulator.expandAll
      rw [ih ⟨p, h1, hpn⟩]
      cases LengthRegulator.expand q.1 q.2 <;> rfl

theorem pad_none_eq [Zero α] (seqs : List (List α)) :
    LengthRegulator.pad seqs none =
      some (seqs.map (fun s =>
        s ++ List.replicate (((seqs.map List.length).foldr max 0) - s.length) (0 : α))) := by
  unfold LengthRegulator.pad
  have hall : seqs.all
      (fun s => decide (s.length ≤ (seqs.map List.length).foldr max 0)) = true := by
    rw [List.all_eq_true]
    intro s hs
    exact decide_eq_true
      (le_foldr_max _ s.length (List.mem_map_of_mem List.length hs))
  simp only [hall, if_true]

theorem LR_none_eq_of_valid [Zero α] (x : List (List α)) (duration : List (List ℤ))
    (hpair : ∀ p ∈ x.zip duration, p.1 ≠ [] ∧ p.1.length = p.2.length ∧ ∀ k ∈ p.2, 0 ≤ k) :
    LengthRegulator.LR x duration none =
      some ((expandedBatch x duration).map
          (fun s => s ++ List.replicate
            ((((expandedBatch x duration).map List.length).foldr max 0) - s.length) (0 : α)),
        (expandedBatch x duration).map List.length) := by
  have hall := expandAll_eq_map (x.zip duration)
    (fun p hp => ⟨(hpair p hp).1, le_of_eq (hpair p hp).2.1, (hpair p hp).2.2⟩)
  simp only [LengthRegulator.LR, expandedBatch, hall, pad_none_eq]

end Lemmas

section LRTheorems

variable {α : Type}

/-- C1: for every batch and non-negative per-sample duration vectors (of the
sample's own arity, samples non-empty so that the concatenation is defined),
the Length Regulator returns, per sample, a real length equal to the sum of
that sample's durations, and each sample expands to the concatenation, in
original position order, of each position's vector repeated exactly its
duration count of times. -/
theorem lengthRegulator_expands_by_duration [Zero α]
    (x : List (List α)) (duration : List (List ℤ))
    (hpair : ∀ p ∈ x.zip duration, p.1 ≠ [] ∧ p.1.length = p.2.length ∧ ∀ k ∈ p.2, 0 ≤ k) :
    ∃ padded melLen,
      LengthRegulator.LR x duration none = some (padded, melLen)
      ∧ melLen = (x.zip duration).map (fun p => (p.2.map Int.toNat).sum)
      ∧ ∀ p ∈ x.zip duration,
          LengthRegulator.expand p.1 p.2 =
            some ((p.1.zip p.2).map (fun q => List.replicate q.2.toNat q.1)).flatten := by
  refine ⟨_, _, LR_none_eq_of_valid x duration hpair, ?_, ?_⟩
  · simp only [expandedBatch, List.map_map]
    exact List.map_congr_left
      (fun p hp => expand_result_length p.1 p.2 (hpair p hp).2.1)
  · intro p hp
    exact expand_eq p.1 p.2 (hpair p hp).1 (le_of_eq (hpair p hp).2.1) (hpair p hp).2.2

theorem lengthRegulator_expands_by_duration_witness :
    ∃ padded melLen,
      LengthRegulator.LR [[(3 : ℚ)], [(5 : ℚ), (7 : ℚ)]] [[2], [1, 0]] none
          = some (padded, melLen)
      ∧ melLen = ([[(3 : ℚ)], [(5 : ℚ), (7 : ℚ)]].zip [([2] : List ℤ), [1, 0]]).map
          (fun p => (p.2.map Int.toNat).sum)
      ∧ ∀ p ∈ [[(3 : ℚ)], [(5 : ℚ), (7 : ℚ)]].zip [([2] : List ℤ), [1, 0]],
          LengthRegulator.expand p.1 p.2 =
            some ((p.1.zip p.2).map (fun q => List.replicate q.2.toNat q.1)).flatten :=
  lengthRegulator_expands_by_duration [[(3 : ℚ)], [(5 : ℚ), (7 : ℚ)]] [[2], [1, 0]]
    (by decide)

/-- C4: when max_len is supplied and some sample's real required length (the
sum of its durations) exceeds it, the Length Regulator reports an error to
the caller (the whole call fails) instead of silently truncating to max_len. -/
theorem lengthRegulator_maxLen_violation_detected [Zero α]
    (x : List (List α)) (duration : List (List ℤ)) (m : ℕ)
    (hpair : ∀ p ∈ x.zip duration, p.1 ≠ [] ∧ p.1.length = p.2.length ∧ ∀ k ∈ p.2, 0 ≤ k)
    (hviol : ∃ p ∈ x.zip duration, m < (p.2.map Int.toNat).sum) :
    LengthRegulator.LR x duration (some m) = none := by
  have hall := expandAll_eq_map (x.zip duration)
    (fun p hp => ⟨(hpair p hp).1, le_of_eq (hpair p hp).2.1, (hpair p hp).2.2⟩)
  obtain ⟨p, hp, hm⟩ := hviol
  have hfalse : ((x.zip duration).map
      (fun p => ((p.1.zip p.2).map (fun q => List.replicate q.2.toNat q.1)).flatten)).all
        (fun s => decide (s.length ≤ m)) = false := by
    rw [List.all_eq_false]
    refine ⟨((p.1.zip p.2).map (fun q => List.replicate q.2.toNat q.1)).flatten,
      List.mem_map_of_mem _ hp, ?_⟩
    simp only [expand_result_length p.1 p.2 (hpair p hp).2.1, decide_eq_true_eq, not_le]
    exact hm
  have hpadnone : LengthRegulator.pad ((x.zip duration).map
      (fun p => ((p.1.zip p.2).map (fun q => List.replicate q.2.toNat q.1)).flatten))
      (some m) = none := by
    simp only [LengthRegulator.pad, hfalse, Bool.false_eq_true, if_false]
  simp only [LengthRegulator.LR, hall, hpadnone]

theorem lengthRegulator_maxLen_violation_detected_witness :
    LengthRegulator.LR [[(3 : ℚ)], [(5 : ℚ)]] [[2], [4]] (some 3) = none :=
  lengthRegulator_maxLen_violation_detected [[(3 : ℚ)], [(5 : ℚ)]] [[2], [4]] 3
    (by decide) ⟨([(5 : ℚ)], [4]), by decide, by decide⟩

/-- C7: a sample whose duration counts are all zero does not make the Length
Regulator fail: its returned real length is 0 and its row in the padded
output consists of zero vectors only, up to the padded length. -/
theorem lengthRegulator_allZero_durations [Zero α]
    (x : List (List α)) (duration : List (List ℤ))
    (hlen : x.length = duration.length)
    (hpair : ∀ p ∈ x.zip duration, p.1 ≠ [] ∧ p.1.length = p.2.length ∧ ∀ k ∈ p.2, 0 ≤ k)
    (i : ℕ) (hi : i < x.length)
    (hz : ∀ k ∈ duration.getD i [], k = (0 : ℤ)) :
    ∃ padded melLen,
      LengthRegulator.LR x duration none = some (padded, melLen)
      ∧ melLen.getD i 1 = 0
      ∧ padded.getD i [] = List.replicate (melLen.foldr max 0) (0 : α) := by
  have hid : i < duration.length := hlen ▸ hi
  have hilen : i < (x.zip duration).length := by
    rw [List.length_zip]; exact lt_min hi hid
  have hieb : i < (expandedBatch x duration).length := by
    simpa [expandedBatch] using hilen
  have hmem : (x[i], duration[i]) ∈ x.zip duration := by
    have h := List.getElem_mem hilen
    rwa [List.getElem_zip] at h
  have hzi : ∀ k ∈ duration[i], k = (0 : ℤ) := by
    intro k hk
    exact hz k (by rwa [List.getD_eq_getElem duration [] hid])
  have hebi : (expandedBatch x duration)[i] = [] := by
    apply List.eq_nil_of_length_eq_zero
    have h1 : (expandedBatch x duration)[i]
        = ((x[i].zip duration[i]).map (fun q => List.replicate q.2.toNat q.1)).flatten := by
      simp only [expandedBatch, List.getElem_map, List.getElem_zip]
    rw [h1, expand_result_length x[i] duration[i] (hpair _ hmem).2.1]
    exact List.sum_eq_zero (by
      intro t ht
      obtain ⟨k, hk, hkt⟩ := List.mem_map.mp ht
      rw [← hkt, hzi k hk]
      rfl)
  refine ⟨_, _, LR_none_eq_of_valid x duration hpair, ?_, ?_⟩
  · rw [List.getD_eq_getElem _ 1 (by simpa using hieb), List.getElem_map, hebi]
    rfl
  · rw [List.getD_eq_getElem _ [] (by simpa using hieb), List.getElem_map, hebi]
    simp

theorem lengthRegulator_allZero_durations_witness :
    ∃ padded melLen,
      LengthRegulator.LR [[(3 : ℚ)], [(5 : ℚ), (7 : ℚ)]] [[0], [2, 1]] none
          = some (padded, melLen)
      ∧ melLen.getD 0 1 = 0
      ∧ padded.getD 0 [] = List.replicate (melLen.foldr max 0) (0 : ℚ) :=
  lengthRegulator_allZero_durations [[(3 : ℚ)], [(5 : ℚ), (7 : ℚ)]] [[0], [2, 1]]
    (by decide) (by decide) 0 (by decide) (by decide)

/-- C10: the Length Regulator rejects a sample with zero phoneme positions:
expanding an empty sample fails (the concatenation of an empty list of
tensors raises), and any batch containing such a sample makes the whole call
fail rather than produce a length-0 result for it. -/
theorem lengthRegulator_rejects_empty_sample :
    (∀ d : List ℤ, LengthRegulator.expand ([] : List ℚ) d = none)
    ∧ ∀ (x : List (List ℚ)) (duration : List (List ℤ)) (maxLen : Option ℕ),
        (∃ p ∈ x.zip duration, p.1 = []) →
        LengthRegulator.LR x duration maxLen = none := by
  have hexp : ∀ d : List ℤ, LengthRegulator.expand ([] : List ℚ) d = none :=
    fun d => rfl
  refine ⟨hexp, ?_⟩
  intro x duration maxLen ⟨p, hp, hpe⟩
  have hnone : LengthRegulator.expandAll (x.zip duration) = none :=
    expandAll_none _ ⟨p, hp, by rw [hpe]; exact hexp p.2⟩
  simp only [LengthRegulator.LR, hnone]

theorem lengthRegulator_rejects_empty_sample_witness :
    LengthRegulator.expand ([] : List ℚ) [3] = none
    ∧ LengthRegulator.LR [[(1 : ℚ)], []] [[1], [2]] none = none :=
  ⟨lengthRegulator_rejects_empty_sample.1 [3],
    lengthRegulator_rejects_empty_sample.2 [[(1 : ℚ)], []] [[1], [2]] none
      ⟨([], [2]), by decide, rfl⟩⟩

end LRTheorems

section IndexLemmas

theorem getD_map {β γ : Type} (f : β → γ) (l : List β) (b : ℕ) (hb : b < l.length)
    (d : γ) (e : β) : (l.map f).getD b d = f (l.getD b e) := by
  rw [List.getD_eq_getElem _ _ (by simpa using hb), List.getElem_map,
    List.getD_eq_getElem _ _ hb]

theorem getD_map_zip {β γ δ : Type} (f : β × γ → δ) (l₁ : List β) (l₂ : List γ)
    (b : ℕ) (hb₁ : b < l₁.length) (hb₂ : b < l₂.length) (d : δ) (e₁ : β) (e₂ : γ) :
    ((l₁.zip l₂).map f).getD b d = f (l₁.getD b e₁, l₂.getD b e₂) := by
  have hbz : b < (l₁.zip l₂).length := by
    rw [List.length_zip]; exact lt_min hb₁ hb₂
  rw [List.getD_eq_getElem _ _ (by simpa using hbz), List.getElem_map, List.getElem_zip,
    List.getD_eq_getElem _ _ hb₁, List.getD_eq_getElem _ _ hb₂]

theorem maskedFill_getD (row : List ℚ) (mrow : List Bool) (t : ℕ)
    (ht : t < row.length) (htm : t < mrow.length) (d : ℚ) :
    (VariancePredictor.maskedFill row mrow).getD t d
      = if mrow.getD t false then 0 else row.getD t d := by
  unfold VariancePredictor.maskedFill
  rw [getD_map_zip (fun p => if p.2 then 0 else p.1) row mrow t ht htm d d false]

theorem sorted_le_getLast (bs : List ℚ) (hs : bs.Sorted (· < ·)) (hne : bs ≠ []) :
    ∀ b ∈ bs, b ≤ bs.getLast hne := by
  induction bs with
  | nil => exact absurd rfl hne
  | cons b0 rest ih =>
    intro b hb
    cases rest with
    | nil =>
      rcases List.mem_cons.mp hb with h | h
      · exact le_of_eq (h.trans rfl)
      · cases h
    | cons c t =>
      have hr : (c :: t) ≠ [] := List.cons_ne_nil _ _
      rw [List.getLast_cons hr]
      obtain ⟨hall, hrest⟩ := List.sorted_cons.mp hs
      rcases List.mem_cons.mp hb with h | h
      · exact h ▸ le_of_lt (hall _ (List.getLast_mem hr))
      · exact ih hrest hr b h

theorem linspace_length (a b : ℚ) (steps : ℕ) : (linspace a b steps).length = steps := by
  unfold linspace
  split
  · simp [*]
  · simp

theorem linspace_sorted (a b : ℚ) (steps : ℕ) (hab : a < b) :
    (linspace a b steps).Sorted (· < ·) := by
  unfold linspace
  split
  · exact List.sorted_singleton a
  · rename_i hs1
    cases steps with
    | zero => exact List.sorted_nil
    | succ n =>
      have hn : 1 ≤ n := Nat.one_le_iff_ne_zero.mpr (fun h0 => hs1 (by rw [h0]))
      refine List.pairwise_map.mpr (List.Pairwise.imp ?_ (List.pairwise_lt_range _))
      intro i j hij
      have hd : (0 : ℚ) < (b - a) / (((n + 1 : ℕ) : ℚ) - 1) := by
        apply div_pos (by linarith)
        have hc : (1 : ℚ) ≤ (n : ℚ) := by exact_mod_cast hn
        push_cast
        linarith
      have hij' : (i : ℚ) < (j : ℚ) := by exact_mod_cast hij
      have := mul_lt_mul_of_pos_right hij' hd
      rw [mul_div_assoc, mul_div_assoc]
      linarith

end IndexLemmas

section AdaptorTheorems

/-- C2: in inference mode (no duration target) the Variance Adaptor derives
the expansion counts elementwise as
clamp(round(exp(log_duration_prediction) - log_offset), min=0), so every
count handed to the Length Regulator is non-negative, whatever the
prediction. -/
theorem adaptor_inference_counts_nonneg (expQ : ℚ → ℚ) (logOffset : ℚ)
    (logDurationPrediction : List (List ℚ)) :
    durationValues expQ logOffset logDurationPrediction none
        = logDurationPrediction.map
            (List.map (fun p => max (torchRound (expQ p - logOffset)) 0))
      ∧ ∀ row ∈ durationValues expQ logOffset logDurationPrediction none,
          ∀ v ∈ row, 0 ≤ v := by
  refine ⟨rfl, ?_⟩
  intro row hrow v hv
  obtain ⟨prow, _, hmap⟩ := List.mem_map.mp hrow
  rw [← hmap] at hv
  obtain ⟨p, _, hpv⟩ := List.mem_map.mp hv
  rw [← hpv]
  exact le_max_right _ _

/-- C5: with a mask supplied to the Variance Predictor, every masked
position of the returned predictions is exactly 0 (an explicit override of
the network output), and every unmasked position carries the network output
unchanged. -/
theorem variancePredictor_mask_override {α : Type} (net : List α → List ℚ)
    (x : List (List α)) (mask : List (List Bool)) (b t : ℕ)
    (hb : b < x.length) (hbm : b < mask.length)
    (ht : t < (net (x.getD b [])).length) (htm : t < (mask.getD b []).length) :
    ((VariancePredictor.forward net x (some mask)).getD b []).getD t 1
      = if (mask.getD b []).getD t false then 0 else (net (x.getD b [])).getD t 1 := by
  have hrow : (x.map net).getD b [] = net (x.getD b []) := getD_map net x b hb [] []
  simp only [VariancePredictor.forward]
  rw [getD_map_zip (fun p => VariancePredictor.maskedFill p.1 p.2) (x.map net) mask b
    (by simpa using hb) hbm [] [] [], hrow]
  exact maskedFill_getD _ _ t ht htm 1

theorem variancePredictor_mask_override_witness :
    ((VariancePredictor.forward (fun s : List ℚ => s.map (fun q => q + 1))
        [[(5 : ℚ), (6 : ℚ)]] (some [[true, false]])).getD 0 []).getD 0 1
      = if (([[true, false]] : List (List Bool)).getD 0 []).getD 0 false then 0
        else (((fun s : List ℚ => s.map (fun q => q + 1))
          ([[(5 : ℚ), (6 : ℚ)]].getD 0 [])).getD 0 1) :=
  variancePredictor_mask_override (fun s : List ℚ => s.map (fun q => q + 1))
    [[(5 : ℚ), (6 : ℚ)]] [[true, false]] 0 0
    (by decide) (by decide) (by decide) (by decide)

/-- C6: in training mode (duration target supplied) the Variance Adaptor's
expansion counts equal the target exactly, for any value of the log-duration
prediction; the log-duration prediction is nevertheless computed and
returned as the adaptor's second output. -/
theorem adaptor_training_uses_target_verbatim {α : Type} [Zero α] [Add α]
    (M : VarianceAdaptor α) (x : List (List α)) (srcMask : List (List Bool))
    (melMask : Option (List (List Bool))) (tgt : List (List ℤ))
    (pitchTarget energyTarget : Option (List (List ℚ))) (maxLen : Option ℕ) :
    (∀ logDurationPrediction : List (List ℚ),
        durationValues M.expQ M.log_offset logDurationPrediction (some tgt) = tgt)
    ∧ ∀ out, M.forward x srcMask melMask (some tgt) pitchTarget energyTarget maxLen = some out →
        out.2.1 = VariancePredictor.forward M.duration_predictor x (some srcMask) := by
  refine ⟨fun _ => rfl, ?_⟩
  intro out hout
  simp only [VarianceAdaptor.forward] at hout
  split at hout
  · exact absurd hout (by simp)
  · cases hout
    rfl

set_option synthInstance.maxSize 512 in
theorem adaptor_training_uses_target_verbatim_witness :
    (([[(1 : ℤ), 1]], [[(0 : ℚ)]], [[(0 : ℚ)]], [[(0 : ℚ)]], ([2] : List ℕ),
        [[false, false]]) :
      List (List ℤ) × List (List ℚ) × List (List ℚ) × List (List ℚ)
        × List ℕ × List (List Bool)).2.1
      = VariancePredictor.forward (fun s : List ℤ => s.map (fun _ => (0 : ℚ)))
          [[(1 : ℤ)]] (some [[false]]) :=
  (adaptor_training_uses_target_verbatim
      ⟨fun s => s.map (fun _ => 0), fun s => s.map (fun _ => 0),
        fun s => s.map (fun _ => 0), fun _ => 0, fun _ => 0, [], [], 1, id⟩
      [[(1 : ℤ)]] [[false]] none [[2]] none none none).2
    ([[(1 : ℤ), 1]], [[(0 : ℚ)]], [[(0 : ℚ)]], [[(0 : ℚ)]], [2], [[false, false]])
    (by decide)

/-- C3: against a strictly increasing boundary list, bucketization maps a
value equal to the j-th boundary to index j, a value strictly below the
first boundary to 0, a value strictly above the last boundary to the
boundary count (n_bins - 1 for the adaptor's bins), and never produces an
index above the boundary count, so every index is a valid embedding-table
index. -/
theorem bucketize_boundary_buckets (bs : List ℚ) (v : ℚ)
    (hs : bs.Sorted (· < ·)) :
    (∀ j (hj : j < bs.length), v = bs.get ⟨j, hj⟩ → bucketize v bs = j)
    ∧ (∀ hne : bs ≠ [], v < bs.head hne → bucketize v bs = 0)
    ∧ (∀ hne : bs ≠ [], bs.getLast hne < v → bucketize v bs = bs.length)
    ∧ bucketize v bs ≤ bs.length := by
  refine ⟨?_, ?_, ?_, List.countP_le_length _⟩
  · intro j hj hv
    unfold bucketize
    rw [← List.take_append_drop j bs, List.countP_append]
    have htake : List.countP (fun b => decide (b < v)) (bs.take j) = j := by
      have hall : ∀ a ∈ bs.take j, decide (a < v) = true := by
        intro a ha
        obtain ⟨i, hm, hia⟩ := List.mem_take_iff_getElem.mp ha
        have hij : i < j := lt_of_lt_of_le hm (min_le_left _ _)
        have hilt : i < bs.length := lt_trans hij hj
        have := hs.get_strictMono (a := ⟨i, hilt⟩) (b := ⟨j, hj⟩) hij
        rw [hv]
        exact decide_eq_true (hia ▸ this)
      rw [List.countP_eq_length.mpr hall, List.length_take]
      exact min_eq_left (le_of_lt hj)
    have hdrop : List.countP (fun b => decide (b < v)) (bs.drop j) = 0 := by
      rw [List.countP_eq_zero]
      intro a ha
      obtain ⟨i, hm, hia⟩ := List.mem_drop_iff_getElem.mp ha
      have hji : (⟨j, hj⟩ : Fin bs.length) ≤ ⟨j + i, by omega⟩ := by
        simp [Fin.le_def]
      have hle := hs.get_strictMono.monotone hji
      rw [hv]
      simp only [decide_eq_true_eq, not_lt]
      calc bs.get ⟨j, hj⟩ ≤ bs.get ⟨j + i, by omega⟩ := hle
        _ = a := hia
    rw [← List.take_append_drop j bs] at htake hdrop ⊢
    omega
  · intro hne hv
    unfold bucketize
    rw [List.countP_eq_zero]
    intro a ha
    cases bs with
    | nil => cases ha
    | cons b0 rest =>
      obtain ⟨hall, _⟩ := List.sorted_cons.mp hs
      simp only [decide_eq_true_eq, not_lt]
      rcases List.mem_cons.mp ha with h | h
      · exact le_of_lt (h ▸ hv)
      · exact le_of_lt (lt_trans hv (hall _ h))
  · intro hne hv
    unfold bucketize
    rw [List.countP_eq_length]
    intro a ha
    exact decide_eq_true (lt_of_le_of_lt (sorted_le_getLast bs hs hne a ha) hv)

theorem bucketize_boundary_buckets_witness :
    bucketize 2 [1, 2, 3] = 1
    ∧ bucketize 0 [1, 2, 3] = 0
    ∧ bucketize 4 [1, 2, 3] = 3 :=
  ⟨(bucketize_boundary_buckets [1, 2, 3] 2 (by decide)).1 1 (by decide) (by decide),
    (bucketize_boundary_buckets [1, 2, 3] 0 (by decide)).2.1 (by decide) (by decide),
    (bucketize_boundary_buckets [1, 2, 3] 4 (by decide)).2.2.1 (by decide) (by decide)⟩

/-- C9: with f0_min < f0_max (through the log transform), energy_min <
energy_max, n_bins at least 2 and a strictly monotone exponential, the pitch
boundary vector exp(linspace(log f0_min, log f0_max, n_bins - 1)) and the
energy boundary vector linspace(energy_min, energy_max, n_bins - 1) each
have length n_bins - 1 and are strictly increasing. -/
theorem bins_construction_monotone (expQ logQ : ℚ → ℚ) (hexp : StrictMono expQ)
    (f0Min f0Max energyMin energyMax : ℚ) (nBins : ℕ) (_hn : 2 ≤ nBins)
    (hlog : logQ f0Min < logQ f0Max) (hen : energyMin < energyMax) :
    (pitchBinsInit expQ logQ f0Min f0Max nBins).length = nBins - 1
    ∧ (pitchBinsInit expQ logQ f0Min f0Max nBins).Sorted (· < ·)
    ∧ (energyBinsInit energyMin energyMax nBins).length = nBins - 1
    ∧ (energyBinsInit energyMin energyMax nBins).Sorted (· < ·) := by
  refine ⟨?_, ?_, ?_, ?_⟩
  · rw [pitchBinsInit, List.length_map, linspace_length]
  · exact List.pairwise_map.mpr
      ((linspace_sorted _ _ _ hlog).imp (fun h => hexp h))
  · rw [energyBinsInit, linspace_length]
  · exact linspace_sorted _ _ _ hen

theorem bins_construction_monotone_witness :
    (pitchBinsInit id id 1 2 3).length = 2
    ∧ (pitchBinsInit id id 1 2 3).Sorted (· < ·)
    ∧ (energyBinsInit 0 1 3).length = 2
    ∧ (energyBinsInit 0 1 3).Sorted (· < ·) :=
  bins_construction_monotone id id strictMono_id 1 2 0 1 3
    (by decide) (by decide) (by decide)

end AdaptorTheorems

section ShapeTheorems

/-- C8 counterexample: with kernel size 5 the Variance Predictor maps an
input of time length 10 to time length 8, so the output shape is not
(batch, time) for every kernel size. -/
theorem variancePredictor_shape_counterexample :
    VariancePredictor.timeOutLen 10 5 ≠ 10 := by decide

/-- C8 (amended): the Variance Predictor's output time length equals the
input time length exactly when the configured kernel size is 2 or 3 — in
particular for the intended kernel size 3 — and differs for every other
kernel size, because the second convolution's padding is fixed at 1 while
the first uses (kernel - 1) / 2. -/
theorem variancePredictor_time_preserved_iff (time kernel : ℕ) :
    VariancePredictor.timeOutLen time kernel = time ↔ kernel = 2 ∨ kernel = 3 := by
  unfold VariancePredictor.timeOutLen Conv.outLen
  omega

end ShapeTheorems

end FastSpeech
